import Mathlib

/-!
Shallow embedding of `src/translate/translate.py` (the dijkstra_bot
translation pipeline) and verification of its specification.

The program is a batch loop: load a YAML source map of keyed strings, and
for each requested target language load (or initialize) `<lang>.yaml` next
to the source file, translate every key missing from that target map
through an external backend, normalize reserved-marker runs (`@@@*`) to the
literal placeholder `{}` before and after translation, merge the results,
and dump the target map back to disk (PyYAML dumps with sorted keys).

Strings are modeled as Lean `String` / `List Char`; the filesystem as a
partial map from paths to parsed YAML documents; the translation backend as
an injectable function returning `Except`; Python exceptions as `Except`
errors threaded through the per-language loop.
-/

namespace DijkstraBot

/-! ### The regex substitution `MAGIC_WORD.sub('{}', s)`

`MAGIC_WORD = re.compile(r'@@@*')` matches a maximal run of two or more
`'@'` characters (`re.sub` scans left to right and matches greedily); each
match is replaced by the two-character string `"{}"`.  We embed this as a
three-state scanner processed one character at a time, which is structural
in the input list and hence evaluates inside the kernel. -/

/-- Scanner state for the `r'@@@*'` substitution: `normal` (no pending
marker), `seenOne` (one `'@'` pending, not yet known to start a match),
`inRun` (inside a match whose replacement `"{}"` has been emitted). -/
inductive MState where
  | normal
  | seenOne
  | inRun
deriving DecidableEq, Repr

/-- One left-to-right pass of `re.sub(r'@@@*', '{}', ·)` starting in
scanner state `st`. -/
def magicRun (s : List Char) (st : MState) : List Char :=
  match s with
  | [] =>
    match st with
    | .seenOne => ['@']
    | _ => []
  | c :: rest =>
    match st with
    | .normal => if c = '@' then magicRun rest .seenOne else c :: magicRun rest .normal
    | .seenOne =>
      if c = '@' then '{' :: '}' :: magicRun rest .inRun
      else '@' :: c :: magicRun rest .normal
    | .inRun => if c = '@' then magicRun rest .inRun else c :: magicRun rest .normal

/-- `MAGIC_WORD.sub('{}', s)` on character lists (translate.py line 11:
`MAGIC_WORD = re.compile(r'@@@*')`). -/
def magicSub (s : List Char) : List Char :=
  magicRun s .normal

/-- `MAGIC_WORD.sub('{}', s)` on strings. -/
def magicSubS (s : String) : String :=
  ⟨magicSub s.data⟩

/-- `l` contains no marker run of length ≥ 2, i.e. no two adjacent `'@'`
characters. -/
def NoRun2 (l : List Char) : Prop :=
  List.Chain' (fun a b => ¬(a = '@' ∧ b = '@')) l

instance : DecidablePred NoRun2 := fun l =>
  inferInstanceAs (Decidable (List.Chain' _ l))


/-! ### Paths

`out_path = os.path.dirname(source)` followed by
`out_path = os.path.join(out_path, f'{lang}.yaml')` (translate.py lines
39–40), embedded following POSIX `dirname`/`join` semantics. -/

/-- `os.path.dirname`: the prefix up to the last `'/'`, with trailing
slashes stripped unless the prefix consists only of slashes; `""` when
there is no slash. -/
def dirname (p : List Char) : List Char :=
  let head := (p.reverse.dropWhile (fun c => c ≠ '/')).reverse
  if head.all (fun c => c = '/') then head
  else (head.reverse.dropWhile (fun c => c = '/')).reverse

/-- `os.path.join a b` for a single join: `b` if absolute, else `a ++ b`
with a separator inserted when `a` is nonempty and does not end in one. -/
def joinPath (a b : List Char) : List Char :=
  if b.head? = some '/' then b
  else if a = [] ∨ a.getLast? = some '/' then a ++ b
  else a ++ '/' :: b

/-- The target file path the code computes for language `lang`
(translate.py lines 39–40): `dirname(source)` joined with `lang + ".yaml"`,
the extension being hardcoded. -/
def outPath (source lang : String) : String :=
  ⟨joinPath (dirname source.data) (lang.data ++ ".yaml".data)⟩

/-- The extension of `p`: the characters after the last `'.'`. -/
def extAfterDot (p : List Char) : List Char :=
  (p.reverse.takeWhile (fun c => c ≠ '.')).reverse

/-- Modelled from the spec: "target files are named
`<language-identifier>.<same-extension-as-source>` and placed in the same
directory as the source file". -/
def specTargetPath (source lang : String) : String :=
  ⟨joinPath (dirname source.data) (lang.data ++ '.' :: extAfterDot source.data)⟩

/-! ### YAML documents, the filesystem, and dictionaries

`yaml.load` of a target file yields either `None` (an empty/null document)
or a mapping; we model the two cases the claims need.  A Python `dict` with
string keys and values is an association list with first-match lookup;
`d[k] = v` replaces the first binding of `k` or appends a fresh one, and
`yaml.dump` serializes with sorted keys (PyYAML's default
`sort_keys=True`), which we model as an insertion sort on keys. -/

/-- A parsed YAML document: the null document (empty file) or a flat
string-to-string mapping. -/
inductive YDoc where
  | null
  | map (m : List (String × String))
deriving DecidableEq, Repr

/-- The filesystem, restricted to what the pipeline touches: each path is
absent or holds a parsed YAML document. -/
def FS : Type := String → Option YDoc

/-- Python exceptions the pipeline can raise: `TypeError` from `key in None`
(membership test on a null document) and any exception escaping the
translation backend call. -/
inductive PyErr where
  | typeError
  | backendError
deriving DecidableEq, Repr

/-- The translation backend (`googletrans Translator.translate`), injectable
so runs can be analyzed for any backend behavior: given a target language
and a text, it returns the translated text or fails. -/
def Backend : Type := String → String → Except Unit String

/-- First-match lookup in an association list (`dict` access / `.get`). -/
def getVal : List (String × String) → String → Option String
  | [], _ => none
  | (k', v') :: rest, k => if k' = k then some v' else getVal rest k

/-- `key in dict` (translate.py line 47). -/
def hasKey (m : List (String × String)) (k : String) : Bool :=
  m.any (fun p => p.1 = k)

/-- `d[k] = v`: replace the first binding of `k`, or append a fresh one. -/
def setKey : List (String × String) → String → String → List (String × String)
  | [], k, v => [(k, v)]
  | (k', v') :: rest, k, v =>
    if k' = k then (k, v) :: rest else (k', v') :: setKey rest k v

/-- Insert all pairs in order via `d[k] = v` (translate.py lines 54–56). -/
def insertAll (m ps : List (String × String)) : List (String × String) :=
  ps.foldl (fun acc kv => setKey acc kv.1 kv.2) m

/-- Lexicographic code-point comparison on character lists (Python's
string ordering, used by `sorted` on `dict` keys). -/
def charsLe : List Char → List Char → Bool
  | [], _ => true
  | _ :: _, [] => false
  | a :: as, b :: bs =>
    if a.toNat < b.toNat then true
    else if b.toNat < a.toNat then false
    else charsLe as bs

/-- Python string `<=` on keys. -/
def keyLe (a b : String) : Bool :=
  charsLe a.data b.data

/-- Insert a pair into a key-sorted association list. -/
def insSorted (a : String × String) :
    List (String × String) → List (String × String)
  | [] => [a]
  | b :: t => if keyLe a.1 b.1 then a :: b :: t else b :: insSorted a t

/-- `yaml.dump(..., sort_keys=True)` key ordering (translate.py line 58,
PyYAML's default): serialize the map sorted by key. -/
def sortByKey (m : List (String × String)) : List (String × String) :=
  m.foldr insSorted []

/-! ### The per-language loop

Translate.py lines 45–51: one `ValueToHashtag` accumulator per language;
for each `(key, value)` of the source map in order, skip the key if
`key in out_yaml` (which raises `TypeError` when the loaded document is
`None`), otherwise substitute marker runs, call the backend (any failure
propagates), and append the key to `translated_keys` and the raw backend
output to `hashtag.lines`.  `collect` returns the queued keys, the raw
backend outputs, and the texts submitted to the backend, in order. -/

/-- The key-iteration loop of `translate` (lines 46–51): returns
`(translated_keys, hashtag.lines, submitted texts)` or the first exception. -/
def collect (B : Backend) (lang : String) (oy : YDoc) :
    List (String × String) → Except PyErr (List String × List String × List String)
  | [] => .ok ([], [], [])
  | (k, v) :: rest =>
    match oy with
    | .null => .error .typeError
    | .map m =>
      if hasKey m k then collect B lang oy rest
      else
        match B lang (magicSubS v) with
        | .error _ => .error .backendError
        | .ok t =>
          match collect B lang oy rest with
          | .error e => .error e
          | .ok (ks, ls, cs) => .ok (k :: ks, t :: ls, magicSubS v :: cs)

/-- The document the per-language pass starts from: the parsed target file
when it exists, else the empty dict initialized at line 36. -/
def loadDoc (fs : FS) (path : String) : YDoc :=
  match fs path with
  | none => .map []
  | some d => d

/-- Process one target language (the body of the `for lang in langs` loop,
lines 36–58): load the existing target document (an absent file acts as the
empty dict of line 36), run the key loop, re-substitute marker runs over
the recorded lines (`get_lines`, line 30), zip them with the queued keys
and insert into the target map (lines 54–56), and write the dumped result
(lines 57–58).  Returns the new filesystem and the submitted texts, or the
first exception (in which case nothing is written). -/
def processLang (B : Backend) (contents : List (String × String))
    (source lang : String) (fs : FS) : Except PyErr (FS × List String) :=
  match collect B lang (loadDoc fs (outPath source lang)) contents with
  | .error e => .error e
  | .ok (ks, ls, cs) =>
    let newDoc : YDoc :=
      match loadDoc fs (outPath source lang) with
      | .null => .null
      | .map m => .map (sortByKey (insertAll m (ks.zip (ls.map magicSubS))))
    .ok (fun p => if p = outPath source lang then some newDoc else fs p, cs)

/-- The whole run of `translate(source, langs)` over the target-language
loop: returns the final filesystem, all texts submitted to the backend in
order, and the uncaught exception if one aborted the run (the filesystem
returned is its state at the moment of the abort). -/
def translateRun (B : Backend) (contents : List (String × String))
    (source : String) : List String → FS → FS × List String × Option PyErr
  | [], fs => (fs, [], none)
  | lang :: rest, fs =>
    match processLang B contents source lang fs with
    | .error e => (fs, [], some e)
    | .ok (fs', cs) =>
      let r := translateRun B contents source rest fs'
      (r.1, cs ++ r.2.1, r.2.2)

/-! ### Derived notions used by the verification -/

/-- The keys of the source map missing from the target map `m`, with their
values, in source order: exactly the entries the loop queues for
translation. -/
def freshList (m contents : List (String × String)) :
    List (String × String) :=
  contents.filter (fun kv => !(hasKey m kv.1))

/-- An association list whose keys appear in (non-strictly) sorted order. -/
def SortedKeys (l : List (String × String)) : Prop :=
  l.Pairwise (fun p q => keyLe p.1 q.1 = true)

/-- After a successful pass over language `lang`, its target file holds a
map that contains every source key and is key-sorted — or the null document
when the source map is empty and the file already held null. -/
def CompleteFor (contents : List (String × String)) (source lang : String)
    (fs : FS) : Prop :=
  match fs (outPath source lang) with
  | some (.map l) => (∀ kv ∈ contents, hasKey l kv.1 = true) ∧ SortedKeys l
  | some .null => contents = []
  | none => False

/-! ### Concrete instances used to exhibit runs of the pipeline -/

/-- A backend stub that returns the submitted text unchanged. -/
def B0 : Backend := fun _ s => .ok s

/-- A backend stub that fails for language `"fr"` and echoes otherwise. -/
def Bfail : Backend := fun l s => if l = "fr" then .error () else .ok s

/-- The empty filesystem. -/
def FSempty : FS := fun _ => none

/-- The filesystem after translating `[("a", "x")]` from `s.yaml` to
`"fr"` starting from an empty filesystem. -/
def F1 : FS :=
  fun p => if p = outPath "s.yaml" "fr" then some (.map [("a", "x")]) else none

/-- A filesystem whose only file is a `"de"` target map. -/
def Fde : FS :=
  fun p => if p = outPath "s.yaml" "de" then some (.map [("a", "x")]) else none

/-- A filesystem holding a pre-existing `"fr"` target map for one key. -/
def Fm : FS :=
  fun p => if p = outPath "s.yaml" "fr" then some (.map [("a", "OLD")]) else none

/-- A filesystem in which every file parses to the null document. -/
def FSnull : FS := fun _ => some .null

/-- `Fm` after a pass translating the missing key `"b"`. -/
def Fm' : FS :=
  fun p => if p = outPath "s.yaml" "fr" then
    some (.map [("a", "OLD"), ("b", "y")]) else Fm p

/-- The filesystem after translating `[("b", "y"), ("a", "x")]` (source in
unsorted key order) from an empty filesystem: keys are persisted sorted. -/
def F9 : FS :=
  fun p => if p = outPath "s.yaml" "fr" then
    some (.map [("a", "x"), ("b", "y")]) else none

/-- Whether a per-language pass completed without raising. -/
def exceptIsOk : Except PyErr (FS × List String) → Bool
  | .ok _ => true
  | .error _ => false

/-! ### The marker substitution: soundness and idempotence -/

/-- The scanner's output never contains two adjacent `'@'` characters,
from any starting state. -/
theorem noRun2_magicRun (s : List Char) : ∀ st, NoRun2 (magicRun s st) := by
  induction s with
  | nil =>
    intro st
    cases st <;> simp [magicRun, NoRun2]
  | cons c rest ih =>
    intro st
    cases st with
    | normal =>
      by_cases hc : c = '@'
      · simpa [magicRun, hc] using ih .seenOne
      · rw [NoRun2, magicRun, if_neg hc, List.chain'_cons']
        exact ⟨fun y _ h => hc h.1, ih .normal⟩
    | seenOne =>
      by_cases hc : c = '@'
      · rw [NoRun2, magicRun, if_pos hc, List.chain'_cons, List.chain'_cons']
        refine ⟨by simp, fun y _ h => by simp at h, ih .inRun⟩
      · rw [NoRun2, magicRun, if_neg hc, List.chain'_cons, List.chain'_cons']
        exact ⟨fun h => hc h.2, fun y _ h => hc h.1, ih .normal⟩
    | inRun =>
      by_cases hc : c = '@'
      · simpa [magicRun, hc] using ih .inRun
      · rw [NoRun2, magicRun, if_neg hc, List.chain'_cons']
        exact ⟨fun y _ h => hc h.1, ih .normal⟩

/-- On input with no marker run of length ≥ 2 the substitution is the
identity (joint statement for the two reachable entry situations). -/
theorem magicRun_eq_self (s : List Char) :
    (NoRun2 s → magicRun s .normal = s) ∧
    (NoRun2 ('@' :: s) → magicRun s .seenOne = '@' :: s) := by
  induction s with
  | nil => exact ⟨fun _ => rfl, fun _ => rfl⟩
  | cons c rest ih =>
    constructor
    · intro h
      by_cases hc : c = '@'
      · subst hc
        rw [magicRun, if_pos rfl]
        exact ih.2 h
      · rw [magicRun, if_neg hc]
        rw [NoRun2, List.chain'_cons'] at h
        rw [ih.1 h.2]
    · intro h
      rw [NoRun2, List.chain'_cons] at h
      have hc : c ≠ '@' := fun hc => h.1 ⟨rfl, hc⟩
      rw [magicRun, if_neg hc]
      rw [List.chain'_cons'] at h
      rw [ih.1 h.2.2]

/-- The substitution is idempotent. -/
theorem magicSub_idem (s : List Char) : magicSub (magicSub s) = magicSub s :=
  (magicRun_eq_self (magicSub s)).1 (noRun2_magicRun s .normal)

theorem magicSubS_idem (s : String) : magicSubS (magicSubS s) = magicSubS s := by
  simp [magicSubS, magicSub_idem]

/-- Characters other than `'@'` pass through the scanner unchanged. -/
theorem magicRun_append_clean (pre t : List Char) (h : '@' ∉ pre) :
    magicRun (pre ++ t) .normal = pre ++ magicRun t .normal := by
  induction pre with
  | nil => rfl
  | cons c rest ih =>
    have hc : c ≠ '@' := fun hc => h (hc ▸ List.mem_cons_self c rest)
    rw [List.cons_append, magicRun, if_neg hc,
      ih (fun hm => h (List.mem_cons_of_mem c hm))]
    rfl

/-- Inside a matched run, further `'@'` characters are consumed. -/
theorem magicRun_inRun_ats (n : ℕ) (t : List Char) :
    magicRun (List.replicate n '@' ++ t) .inRun = magicRun t .inRun := by
  induction n with
  | zero => rfl
  | succ k ih => rw [List.replicate_succ, List.cons_append, magicRun, if_pos rfl, ih]

/-- A matched run ends at the first non-`'@'` character. -/
theorem magicRun_inRun_exit (t : List Char) (h : t.head? ≠ some '@') :
    magicRun t .inRun = magicRun t .normal := by
  cases t with
  | nil => rfl
  | cons c rest =>
    have hc : c ≠ '@' := fun hc => h (by rw [hc]; rfl)
    rw [magicRun, if_neg hc, magicRun, if_neg hc]

/-- A marker run of length ≥ 2, with marker-free text before it and no
adjacent marker after it, is replaced by the literal placeholder `"{}"`. -/
theorem magicSub_placement (pre post : List Char) (n : ℕ) (hn : 2 ≤ n)
    (hpre : '@' ∉ pre) (hpost : post.head? ≠ some '@') :
    magicSub (pre ++ List.replicate n '@' ++ post) =
      pre ++ '{' :: '}' :: magicSub post := by
  obtain ⟨k, rfl⟩ : ∃ k, n = k + 2 := ⟨n - 2, by omega⟩
  rw [magicSub, List.append_assoc, magicRun_append_clean _ _ hpre]
  congr 1
  rw [show k + 2 = 1 + (1 + k) by omega, List.replicate_add, List.replicate_one,
    List.replicate_add, List.replicate_one]
  simp only [List.cons_append, List.nil_append, List.singleton_append]
  rw [magicRun, if_pos rfl, magicRun, if_pos rfl, magicRun_inRun_ats,
    magicRun_inRun_exit _ hpost]
  rfl

/-! ### The key ordering and the dump's sort -/

theorem charsLe_total (a : List Char) :
    ∀ b, charsLe a b = true ∨ charsLe b a = true := by
  induction a with
  | nil => intro b; left; rfl
  | cons x xs ih =>
    intro b
    cases b with
    | nil => right; rfl
    | cons y ys =>
      rw [charsLe, charsLe]
      rcases Nat.lt_trichotomy x.toNat y.toNat with h | h | h
      · left; simp [h]
      · have h' : ¬x.toNat < y.toNat := by omega
        have h'' : ¬y.toNat < x.toNat := by omega
        rcases ih ys with hc | hc
        · left; simp [h', h'', hc]
        · right; simp [h', h'', hc]
      · right; simp [h]

theorem charsLe_trans (a : List Char) :
    ∀ b c, charsLe a b = true → charsLe b c = true → charsLe a c = true := by
  induction a with
  | nil => intro b c _ _; rfl
  | cons x xs ih =>
    intro b c hab hbc
    cases b with
    | nil => simp [charsLe] at hab
    | cons y ys =>
      cases c with
      | nil => simp [charsLe] at hbc
      | cons z zs =>
        rw [charsLe] at hab hbc ⊢
        by_cases h1 : x.toNat < y.toNat
        · by_cases h2 : y.toNat < z.toNat
          · rw [if_pos (by omega)]
          · rw [if_neg h2] at hbc
            by_cases h2' : z.toNat < y.toNat
            · rw [if_pos h2'] at hbc
              exact absurd hbc (by simp)
            · rw [if_pos (by omega)]
        · rw [if_neg h1] at hab
          by_cases h1' : y.toNat < x.toNat
          · rw [if_pos h1'] at hab
            exact absurd hab (by simp)
          · rw [if_neg h1'] at hab
            by_cases h2 : y.toNat < z.toNat
            · rw [if_pos (by omega)]
            · rw [if_neg h2] at hbc
              by_cases h2' : z.toNat < y.toNat
              · rw [if_pos h2'] at hbc
                exact absurd hbc (by simp)
              · rw [if_neg h2'] at hbc
                rw [if_neg (by omega : ¬x.toNat < z.toNat),
                  if_neg (by omega : ¬z.toNat < x.toNat)]
                exact ih ys zs hab hbc

theorem keyLe_total (a b : String) : keyLe a b = true ∨ keyLe b a = true :=
  charsLe_total a.data b.data

theorem keyLe_trans {a b c : String} (h1 : keyLe a b = true)
    (h2 : keyLe b c = true) : keyLe a c = true :=
  charsLe_trans a.data b.data c.data h1 h2

theorem insSorted_perm (a : String × String) (l : List (String × String)) :
    (insSorted a l).Perm (a :: l) := by
  induction l with
  | nil => exact List.Perm.refl _
  | cons b t ih =>
    rw [insSorted]
    by_cases h : keyLe a.1 b.1 = true
    · rw [if_pos h]
    · rw [if_neg h]
      exact (ih.cons b).trans (List.Perm.swap a b t)

theorem sortByKey_perm (l : List (String × String)) : (sortByKey l).Perm l := by
  induction l with
  | nil => exact List.Perm.refl _
  | cons a t ih => exact (insSorted_perm a (sortByKey t)).trans (ih.cons a)

theorem insSorted_sorted (a : String × String) (l : List (String × String))
    (h : SortedKeys l) : SortedKeys (insSorted a l) := by
  induction l with
  | nil => simp [insSorted, SortedKeys]
  | cons b t ih =>
    rw [SortedKeys, List.pairwise_cons] at h
    rw [insSorted]
    by_cases hab : keyLe a.1 b.1 = true
    · rw [if_pos hab, SortedKeys, List.pairwise_cons]
      refine ⟨?_, List.pairwise_cons.mpr h⟩
      intro q hq
      rcases List.mem_cons.mp hq with rfl | hq
      · exact hab
      · exact keyLe_trans hab (h.1 q hq)
    · rw [if_neg hab, SortedKeys, List.pairwise_cons]
      have hba : keyLe b.1 a.1 = true := (keyLe_total a.1 b.1).resolve_left hab
      refine ⟨?_, ih h.2⟩
      intro q hq
      have hq' := (insSorted_perm a t).mem_iff.mp hq
      rcases List.mem_cons.mp hq' with rfl | hq'
      · exact hba
      · exact h.1 q hq'

theorem sortByKey_sorted (l : List (String × String)) :
    SortedKeys (sortByKey l) := by
  induction l with
  | nil => simp [sortByKey, SortedKeys]
  | cons a t ih => exact insSorted_sorted a (sortByKey t) ih

theorem sortByKey_eq_self (l : List (String × String)) (h : SortedKeys l) :
    sortByKey l = l := by
  induction l with
  | nil => rfl
  | cons a t ih =>
    rw [SortedKeys, List.pairwise_cons] at h
    have ht : sortByKey t = t := ih h.2
    show insSorted a (sortByKey t) = a :: t
    rw [ht]
    cases t with
    | nil => rfl
    | cons b t' =>
      rw [insSorted, if_pos (h.1 b (List.mem_cons_self b t'))]

/-! ### Dictionary lemmas -/

theorem hasKey_iff (l : List (String × String)) (k : String) :
    hasKey l k = true ↔ k ∈ l.map Prod.fst := by
  rw [hasKey, List.any_eq_true, List.mem_map]
  constructor
  · rintro ⟨p, hp, he⟩
    exact ⟨p, hp, of_decide_eq_true he⟩
  · rintro ⟨p, hp, he⟩
    exact ⟨p, hp, decide_eq_true he⟩

theorem getVal_eq_none (l : List (String × String)) (k : String)
    (h : hasKey l k = false) : getVal l k = none := by
  induction l with
  | nil => rfl
  | cons p rest ih =>
    obtain ⟨k0, v0⟩ := p
    rw [hasKey, List.any_cons, Bool.or_eq_false_iff] at h
    rw [getVal, if_neg (by simpa using h.1)]
    exact ih h.2

theorem hasKey_of_getVal_some (l : List (String × String)) (k : String)
    (h : ∃ v, getVal l k = some v) : hasKey l k = true := by
  by_contra hc
  obtain ⟨v, hv⟩ := h
  rw [getVal_eq_none l k (Bool.eq_false_iff.mpr hc)] at hv
  exact Option.noConfusion hv

theorem hasKey_perm {l₁ l₂ : List (String × String)} (h : l₁.Perm l₂)
    (k : String) : hasKey l₁ k = hasKey l₂ k := by
  rw [Bool.eq_iff_iff, hasKey_iff, hasKey_iff]
  exact (h.map Prod.fst).mem_iff

theorem getVal_perm {l₁ l₂ : List (String × String)} (h : l₁.Perm l₂)
    (hnd : (l₁.map Prod.fst).Nodup) (k : String) :
    getVal l₁ k = getVal l₂ k := by
  induction h with
  | nil => rfl
  | cons x h ih =>
    obtain ⟨x1, x2⟩ := x
    rw [getVal, getVal]
    by_cases hx : x1 = k
    · rw [if_pos hx, if_pos hx]
    · rw [if_neg hx, if_neg hx]
      exact ih (by simpa using (List.nodup_cons.mp (by simpa using hnd)).2)
  | swap x y t =>
    obtain ⟨x1, x2⟩ := x
    obtain ⟨y1, y2⟩ := y
    have hxy : y1 ≠ x1 := by
      simp only [List.map_cons, List.nodup_cons, List.mem_cons] at hnd
      exact fun he => hnd.1 (Or.inl he)
    rw [getVal, getVal, getVal, getVal]
    by_cases hy : y1 = k
    · rw [if_pos hy, if_neg (fun he => hxy (hy.trans he.symm)), if_pos hy]
    · by_cases hx : x1 = k
      · rw [if_neg hy, if_pos hx, if_pos hx]
      · rw [if_neg hy, if_neg hx, if_neg hx, if_neg hy]
  | trans h1 h2 ih1 ih2 =>
    exact (ih1 hnd).trans (ih2 (((h1.map Prod.fst).nodup_iff).mp hnd))

theorem getVal_sortByKey (l : List (String × String))
    (hnd : (l.map Prod.fst).Nodup) (k : String) :
    getVal (sortByKey l) k = getVal l k :=
  getVal_perm (sortByKey_perm l)
    (((sortByKey_perm l).map Prod.fst).nodup_iff.mpr hnd) k

theorem getVal_setKey (m : List (String × String)) (k v k' : String) :
    getVal (setKey m k v) k' = if k = k' then some v else getVal m k' := by
  induction m with
  | nil => rfl
  | cons p rest ih =>
    obtain ⟨k0, v0⟩ := p
    rw [setKey]
    by_cases h0 : k0 = k
    · rw [if_pos h0, getVal, getVal]
      by_cases h' : k = k'
      · rw [if_pos h', if_pos h']
      · rw [if_neg h', if_neg h', if_neg (fun he => h' (h0.symm.trans he))]
    · rw [if_neg h0, getVal, getVal]
      by_cases h' : k0 = k'
      · rw [if_pos h', if_pos h', if_neg (fun he => h0 (h'.trans he.symm))]
      · rw [if_neg h', if_neg h', ih]

theorem hasKey_setKey (m : List (String × String)) (k v k' : String) :
    hasKey (setKey m k v) k' = (hasKey m k' || decide (k = k')) := by
  induction m with
  | nil => simp [setKey, hasKey]
  | cons p rest ih =>
    obtain ⟨k0, v0⟩ := p
    rw [setKey]
    by_cases h0 : k0 = k
    · subst h0
      simp only [if_pos rfl, hasKey, List.any_cons]
      cases hd : decide (k0 = k') <;> simp [hd]
    · rw [if_neg h0]
      simp only [hasKey, List.any_cons] at ih ⊢
      rw [ih, Bool.or_assoc]

theorem keys_setKey_of_not (m : List (String × String)) (k v : String)
    (h : hasKey m k = false) :
    (setKey m k v).map Prod.fst = m.map Prod.fst ++ [k] := by
  induction m with
  | nil => rfl
  | cons p rest ih =>
    obtain ⟨k0, v0⟩ := p
    rw [hasKey, List.any_cons, Bool.or_eq_false_iff] at h
    rw [setKey, if_neg (by simpa using h.1), List.map_cons, List.map_cons,
      ih h.2, List.cons_append]

theorem getVal_insertAll (ps : List (String × String)) :
    ∀ (m : List (String × String)) (k : String),
      (ps.map Prod.fst).Nodup →
      getVal (insertAll m ps) k =
        match getVal ps k with
        | some v => some v
        | none => getVal m k := by
  induction ps with
  | nil => intro m k _; rfl
  | cons p ps ih =>
    obtain ⟨k0, v0⟩ := p
    intro m k hnd
    simp only [List.map_cons, List.nodup_cons] at hnd
    have hstep : insertAll m ((k0, v0) :: ps) = insertAll (setKey m k0 v0) ps := rfl
    rw [hstep, ih (setKey m k0 v0) k hnd.2, getVal]
    by_cases hk : k0 = k
    · subst hk
      have h0 : hasKey ps k0 = false :=
        Bool.eq_false_iff.mpr (fun hh => hnd.1 ((hasKey_iff ps k0).mp hh))
      rw [getVal_eq_none ps k0 h0, if_pos rfl]
      show getVal (setKey m k0 v0) k0 = some v0
      rw [getVal_setKey, if_pos rfl]
    · rw [if_neg hk]
      cases hcase : getVal ps k with
      | some v => rfl
      | none =>
        show getVal (setKey m k0 v0) k = getVal m k
        rw [getVal_setKey, if_neg hk]

theorem hasKey_insertAll (ps : List (String × String)) :
    ∀ (m : List (String × String)) (k : String),
      hasKey (insertAll m ps) k = (hasKey m k || hasKey ps k) := by
  induction ps with
  | nil => intro m k; simp [insertAll, hasKey]
  | cons p ps ih =>
    obtain ⟨k0, v0⟩ := p
    intro m k
    have hstep : insertAll m ((k0, v0) :: ps) = insertAll (setKey m k0 v0) ps := rfl
    rw [hstep, ih, hasKey_setKey]
    simp only [hasKey, List.any_cons, Bool.or_assoc]

theorem keys_insertAll (ps : List (String × String)) :
    ∀ (m : List (String × String)),
      (∀ p ∈ ps, hasKey m p.1 = false) → (ps.map Prod.fst).Nodup →
      (insertAll m ps).map Prod.fst = m.map Prod.fst ++ ps.map Prod.fst := by
  induction ps with
  | nil => intro m _ _; simp [insertAll]
  | cons p ps ih =>
    obtain ⟨k0, v0⟩ := p
    intro m hfresh hnd
    simp only [List.map_cons, List.nodup_cons] at hnd
    have hstep : insertAll m ((k0, v0) :: ps) = insertAll (setKey m k0 v0) ps := rfl
    have hfresh' : ∀ p ∈ ps, hasKey (setKey m k0 v0) p.1 = false := by
      intro p hp
      rw [hasKey_setKey, Bool.or_eq_false_iff]
      refine ⟨hfresh p (List.mem_cons_of_mem _ hp), ?_⟩
      have hne : ¬(k0 = p.1) := fun he => hnd.1 (by
        rw [he]
        exact List.mem_map_of_mem Prod.fst hp)
      simpa using hne
    rw [hstep, ih (setKey m k0 v0) hfresh' hnd.2,
      keys_setKey_of_not m k0 v0 (hfresh (k0, v0) (List.mem_cons_self _ _)),
      List.append_assoc, List.singleton_append, List.map_cons]

theorem nodup_keys_insertAll (ps m : List (String × String))
    (hm : (m.map Prod.fst).Nodup) (hnd : (ps.map Prod.fst).Nodup)
    (hfresh : ∀ p ∈ ps, hasKey m p.1 = false) :
    ((insertAll m ps).map Prod.fst).Nodup := by
  rw [keys_insertAll ps m hfresh hnd]
  refine List.Nodup.append hm hnd ?_
  intro a ham haps
  obtain ⟨p, hp, hpa⟩ := List.mem_map.mp haps
  have := hfresh p hp
  rw [hpa] at this
  exact absurd ((hasKey_iff m a).mpr ham) (by rw [this]; exact Bool.false_ne_true)

/-! ### Zip lemmas -/

theorem getVal_zip_none (ks : List String) :
    ∀ (ls : List String) (k : String), k ∉ ks →
      getVal (ks.zip ls) k = none := by
  induction ks with
  | nil => intro ls k _; rfl
  | cons k0 ks ih =>
    intro ls k hk
    cases ls with
    | nil => rfl
    | cons l0 ls =>
      rw [List.zip_cons_cons, getVal,
        if_neg (fun he => hk (List.mem_cons.mpr (Or.inl he.symm)))]
      exact ih ls k (fun hm => hk (List.mem_cons_of_mem k0 hm))

theorem getVal_zip_getElem (ks : List String) :
    ∀ (ls : List String), ks.Nodup →
      ∀ (i : ℕ) (h1 : i < ks.length) (h2 : i < ls.length),
        getVal (ks.zip ls) ks[i] = some ls[i] := by
  induction ks with
  | nil => intro ls _ i h1 _; exact absurd h1 (by simp)
  | cons k0 ks ih =>
    intro ls hnd i h1 h2
    cases ls with
    | nil => exact absurd h2 (by simp)
    | cons l0 ls =>
      rw [List.nodup_cons] at hnd
      cases i with
      | zero => simp [getVal]
      | succ j =>
        have hj1 : j < ks.length := by simpa using h1
        have hj2 : j < ls.length := by simpa using h2
        rw [List.zip_cons_cons, List.getElem_cons_succ, List.getElem_cons_succ,
          getVal, if_neg (fun he => hnd.1 (by rw [he]; exact ks.getElem_mem hj1))]
        exact ih ls hnd.2 j hj1 hj2

theorem forall₂_zip_getVal {R : (String × String) → String → Prop}
    (f : String → String) (fresh : List (String × String)) (ls : List String)
    (hf : List.Forall₂ R fresh ls) :
    (fresh.map Prod.fst).Nodup →
    ∀ k v, (k, v) ∈ fresh →
      ∃ t, R (k, v) t ∧
        getVal ((fresh.map Prod.fst).zip (ls.map f)) k = some (f t) := by
  induction hf with
  | nil =>
    intro _ k v hv
    exact absurd hv (List.not_mem_nil _)
  | @cons a b l₁ l₂ hR htail ih =>
    intro hnd k v hkv
    simp only [List.map_cons, List.nodup_cons] at hnd
    rcases List.mem_cons.mp hkv with he | hkv
    · refine ⟨b, ?_, ?_⟩
      · rw [he]; exact hR
      · rw [List.map_cons, List.map_cons, List.zip_cons_cons, getVal,
          if_pos (congrArg Prod.fst he).symm]
    · have hk : a.1 ≠ k := by
        intro he'
        refine hnd.1 ?_
        rw [he']
        exact List.mem_map_of_mem Prod.fst hkv
      obtain ⟨t, ht, hg⟩ := ih hnd.2 k v hkv
      refine ⟨t, ht, ?_⟩
      rw [List.map_cons, List.map_cons, List.zip_cons_cons, getVal, if_neg hk]
      exact hg

/-! ### `NoRun2` helpers -/

theorem noRun2_of_no_at (l : List Char) (h : '@' ∉ l) : NoRun2 l := by
  induction l with
  | nil => simp [NoRun2]
  | cons c t ih =>
    rw [NoRun2, List.chain'_cons']
    refine ⟨fun y _ hy => h (List.mem_cons.mpr (Or.inl hy.1.symm)), ?_⟩
    exact ih (fun hm => h (List.mem_cons_of_mem c hm))

theorem noRun2_pre_placeholder (pre post : List Char) (hpre : '@' ∉ pre) :
    NoRun2 (pre ++ '{' :: '}' :: magicSub post) := by
  rw [NoRun2, List.chain'_append]
  refine ⟨noRun2_of_no_at pre hpre, ?_, ?_⟩
  · rw [List.chain'_cons]
    refine ⟨by simp, ?_⟩
    rw [List.chain'_cons']
    exact ⟨fun y _ hy => by simp at hy, noRun2_magicRun post .normal⟩
  · intro x hx y hy hc
    exact absurd (hc.2) (by simp_all)

/-! ### The key loop: characterization -/

theorem collect_ok (B : Backend) (lang : String)
    (m : List (String × String)) :
    ∀ (contents : List (String × String)) (ks ls cs : List String),
      collect B lang (.map m) contents = .ok (ks, ls, cs) →
      ks = (freshList m contents).map Prod.fst ∧
      cs = (freshList m contents).map (fun kv => magicSubS kv.2) ∧
      List.Forall₂ (fun kv t => B lang (magicSubS kv.2) = Except.ok t)
        (freshList m contents) ls := by
  intro contents
  induction contents with
  | nil =>
    intro ks ls cs h
    simp only [collect, Except.ok.injEq, Prod.mk.injEq] at h
    obtain ⟨h1, h2, h3⟩ := h
    exact ⟨h1.symm, h3.symm, h2 ▸ List.Forall₂.nil⟩
  | cons kv rest ih =>
    obtain ⟨k, v⟩ := kv
    intro ks ls cs h
    rw [collect] at h
    by_cases hk : hasKey m k = true
    · rw [if_pos hk] at h
      have hfre : freshList m ((k, v) :: rest) = freshList m rest := by
        simp [freshList, List.filter_cons, hk]
      rw [hfre]
      exact ih ks ls cs h
    · rw [if_neg hk] at h
      have hfre : freshList m ((k, v) :: rest) = (k, v) :: freshList m rest := by
        simp [freshList, List.filter_cons, Bool.eq_false_iff.mpr hk]
      cases hB : B lang (magicSubS v) with
      | error e =>
        rw [hB] at h
        exact absurd h (by simp)
      | ok t =>
        rw [hB] at h
        cases hC : collect B lang (.map m) rest with
        | error e =>
          rw [hC] at h
          exact absurd h (by simp)
        | ok trip =>
          obtain ⟨ks', ls', cs'⟩ := trip
          rw [hC] at h
          simp only [Except.ok.injEq, Prod.mk.injEq] at h
          obtain ⟨h1, h2, h3⟩ := h
          obtain ⟨e1, e2, e3⟩ := ih ks' ls' cs' hC
          rw [hfre, ← h1, ← h2, ← h3]
          refine ⟨?_, ?_, ?_⟩
          · rw [List.map_cons, e1]
          · rw [List.map_cons, e2]
          · exact List.Forall₂.cons hB e3

theorem collect_all_present (B : Backend) (lang : String)
    (m : List (String × String)) :
    ∀ contents, (∀ kv ∈ contents, hasKey m kv.1 = true) →
      collect B lang (.map m) contents = .ok ([], [], []) := by
  intro contents
  induction contents with
  | nil => intro _; rfl
  | cons kv rest ih =>
    obtain ⟨k, v⟩ := kv
    intro hall
    rw [collect, if_pos (hall (k, v) (List.mem_cons_self _ _))]
    exact ih (fun p hp => hall p (List.mem_cons_of_mem _ hp))

theorem collect_null (B : Backend) (lang : String) (kv : String × String)
    (rest : List (String × String)) :
    collect B lang .null (kv :: rest) = .error .typeError := by
  obtain ⟨k, v⟩ := kv
  rfl

/-! ### Eliminating a successful per-language pass -/

theorem processLang_ok_elim {B : Backend} {contents : List (String × String)}
    {source lang : String} {fs fs' : FS} {cs : List String}
    {m : List (String × String)}
    (hoy : loadDoc fs (outPath source lang) = .map m)
    (hrun : processLang B contents source lang fs = .ok (fs', cs)) :
    ∃ ks ls, collect B lang (.map m) contents = .ok (ks, ls, cs) ∧
      fs' = fun p =>
        if p = outPath source lang then
          some (.map (sortByKey (insertAll m (ks.zip (ls.map magicSubS)))))
        else fs p := by
  rw [processLang, hoy] at hrun
  split at hrun
  · exact absurd hrun (by simp)
  · rename_i ks ls cs' heq
    simp only [Except.ok.injEq, Prod.mk.injEq] at hrun
    exact ⟨ks, ls, hrun.2 ▸ heq, hrun.1.symm⟩

theorem processLang_ok_null {B : Backend} {contents : List (String × String)}
    {source lang : String} {fs fs' : FS} {cs : List String}
    (hoy : loadDoc fs (outPath source lang) = .null)
    (hrun : processLang B contents source lang fs = .ok (fs', cs)) :
    contents = [] ∧ cs = [] ∧
      fs' = fun p => if p = outPath source lang then some .null else fs p := by
  cases contents with
  | cons kv rest =>
    rw [processLang, hoy, collect_null] at hrun
    exact absurd hrun (by simp)
  | nil =>
    rw [processLang, hoy] at hrun
    have hcol : collect B lang YDoc.null [] = .ok ([], [], []) := rfl
    rw [hcol] at hrun
    simp only [Except.ok.injEq, Prod.mk.injEq] at hrun
    exact ⟨rfl, hrun.2.symm, hrun.1.symm⟩

/-! ### Re-run stability machinery -/

theorem processLang_ok_complete {B : Backend}
    {contents : List (String × String)} {source lang : String}
    {fs fs' : FS} {cs : List String}
    (hrun : processLang B contents source lang fs = .ok (fs', cs)) :
    CompleteFor contents source lang fs' := by
  cases hoy : loadDoc fs (outPath source lang) with
  | null =>
    obtain ⟨hc, _, hfs⟩ := processLang_ok_null hoy hrun
    rw [CompleteFor, hfs]
    simp only [if_pos rfl]
    exact hc
  | map m =>
    obtain ⟨ks, ls, hcol, hfs⟩ := processLang_ok_elim hoy hrun
    obtain ⟨e1, _, e3⟩ := collect_ok B lang m contents ks ls cs hcol
    rw [CompleteFor, hfs]
    simp only [if_pos rfl]
    refine ⟨?_, sortByKey_sorted _⟩
    intro kv hkv
    rw [hasKey_perm (sortByKey_perm _), hasKey_insertAll]
    by_cases hk : hasKey m kv.1 = true
    · simp [hk]
    · have hkv' : kv ∈ freshList m contents := by
        rw [freshList, List.mem_filter]
        exact ⟨hkv, by simp [Bool.eq_false_iff.mpr hk]⟩
      have hlen : ls.length = (freshList m contents).length :=
        e3.length_eq.symm
      have hkeys : (ks.zip (ls.map magicSubS)).map Prod.fst = ks := by
        apply List.map_fst_zip
        rw [List.length_map, hlen, e1, List.length_map]
      have hmem : hasKey (ks.zip (ls.map magicSubS)) kv.1 = true := by
        rw [hasKey_iff, hkeys, e1]
        exact List.mem_map_of_mem Prod.fst hkv'
      simp [hmem]

theorem processLang_ok_update {B : Backend}
    {contents : List (String × String)} {source lang : String}
    {fs fs' : FS} {cs : List String}
    (hrun : processLang B contents source lang fs = .ok (fs', cs)) :
    ∀ p, p ≠ outPath source lang → fs' p = fs p := by
  intro p hp
  cases hoy : loadDoc fs (outPath source lang) with
  | null =>
    obtain ⟨_, _, hfs⟩ := processLang_ok_null hoy hrun
    rw [hfs]
    exact if_neg hp
  | map m =>
    obtain ⟨ks, ls, _, hfs⟩ := processLang_ok_elim hoy hrun
    rw [hfs]
    exact if_neg hp

theorem processLang_preserves_complete {B : Backend}
    {contents : List (String × String)} {source lang lang' : String}
    {fs fs' : FS} {cs : List String}
    (hc : CompleteFor contents source lang' fs)
    (hrun : processLang B contents source lang fs = .ok (fs', cs)) :
    CompleteFor contents source lang' fs' := by
  by_cases hpath : outPath source lang' = outPath source lang
  · have hcomp := processLang_ok_complete hrun
    rw [CompleteFor] at hcomp ⊢
    rw [hpath]
    exact hcomp
  · have hsame : fs' (outPath source lang') = fs (outPath source lang') :=
      processLang_ok_update hrun _ hpath
    rw [CompleteFor] at hc ⊢
    rw [hsame]
    exact hc

theorem translateRun_preserves_complete {B : Backend}
    {contents : List (String × String)} {source lang' : String} :
    ∀ (langs : List String) (fs fs1 : FS) (cs : List String),
      CompleteFor contents source lang' fs →
      translateRun B contents source langs fs = (fs1, cs, none) →
      CompleteFor contents source lang' fs1 := by
  intro langs
  induction langs with
  | nil =>
    intro fs fs1 cs hc h
    simp only [translateRun, Prod.mk.injEq] at h
    rw [← h.1]
    exact hc
  | cons l rest ih =>
    intro fs fs1 cs hc h
    rw [translateRun] at h
    cases hpl : processLang B contents source l fs with
    | error e =>
      simp only [hpl, Prod.mk.injEq] at h
      exact absurd h.2.2 (by simp)
    | ok pr =>
      obtain ⟨fs', cs'⟩ := pr
      simp only [hpl] at h
      rcases hrr : translateRun B contents source rest fs' with ⟨a, bc⟩
      obtain ⟨b, c⟩ := bc
      rw [hrr] at h
      simp only [Prod.mk.injEq] at h
      have hrest : translateRun B contents source rest fs' = (fs1, b, none) := by
        rw [hrr, h.1, h.2.2]
      exact ih fs' fs1 b (processLang_preserves_complete hc hpl) hrest

theorem translateRun_complete {B : Backend}
    {contents : List (String × String)} {source : String} :
    ∀ (langs : List String) (fs fs1 : FS) (cs : List String),
      translateRun B contents source langs fs = (fs1, cs, none) →
      ∀ lang ∈ langs, CompleteFor contents source lang fs1 := by
  intro langs
  induction langs with
  | nil =>
    intro fs fs1 cs _ lang hmem
    exact absurd hmem (List.not_mem_nil _)
  | cons l rest ih =>
    intro fs fs1 cs h lang hmem
    rw [translateRun] at h
    cases hpl : processLang B contents source l fs with
    | error e =>
      simp only [hpl, Prod.mk.injEq] at h
      exact absurd h.2.2 (by simp)
    | ok pr =>
      obtain ⟨fs', cs'⟩ := pr
      simp only [hpl] at h
      rcases hrr : translateRun B contents source rest fs' with ⟨a, bc⟩
      obtain ⟨b, c⟩ := bc
      rw [hrr] at h
      simp only [Prod.mk.injEq] at h
      have hrest : translateRun B contents source rest fs' = (fs1, b, none) := by
        rw [hrr, h.1, h.2.2]
      rcases List.mem_cons.mp hmem with rfl | hmem'
      · exact translateRun_preserves_complete rest fs' fs1 b
          (processLang_ok_complete hpl) hrest
      · exact ih fs' fs1 b hrest lang hmem'

theorem processLang_complete_noop {B : Backend}
    {contents : List (String × String)} {source lang : String} {fs : FS}
    (hc : CompleteFor contents source lang fs) :
    processLang B contents source lang fs = .ok (fs, []) := by
  rw [CompleteFor] at hc
  cases hfs : fs (outPath source lang) with
  | none =>
    rw [hfs] at hc
    exact hc.elim
  | some d =>
    rw [hfs] at hc
    cases d with
    | null =>
      have hload : loadDoc fs (outPath source lang) = .null := by
        rw [loadDoc, hfs]
      rw [processLang, hload]
      subst hc
      have hcol : collect B lang YDoc.null [] = .ok ([], [], []) := rfl
      rw [hcol]
      show Except.ok
        ((fun p => if p = outPath source lang then some YDoc.null else fs p),
          ([] : List String)) = Except.ok (fs, [])
      have hfse :
          (fun p => if p = outPath source lang then some YDoc.null else fs p)
            = fs := by
        funext p
        by_cases hp : p = outPath source lang
        · rw [if_pos hp, hp, hfs]
        · rw [if_neg hp]
      rw [hfse]
    | map l =>
      have hload : loadDoc fs (outPath source lang) = .map l := by
        rw [loadDoc, hfs]
      rw [processLang, hload, collect_all_present B lang l contents hc.1]
      have h1 :
          sortByKey (insertAll l
            (List.zip ([] : List String) (List.map magicSubS []))) = l := by
        show sortByKey l = l
        exact sortByKey_eq_self l hc.2
      show Except.ok
        ((fun p => if p = outPath source lang then
            some (YDoc.map (sortByKey (insertAll l
              (List.zip ([] : List String) (List.map magicSubS [])))))
          else fs p), ([] : List String)) = Except.ok (fs, [])
      rw [h1]
      have hfse :
          (fun p => if p = outPath source lang then some (YDoc.map l) else fs p)
            = fs := by
        funext p
        by_cases hp : p = outPath source lang
        · rw [if_pos hp, hp, hfs]
        · rw [if_neg hp]
      rw [hfse]

theorem translateRun_complete_noop {B : Backend}
    {contents : List (String × String)} {source : String} :
    ∀ (langs : List String) (fs : FS),
      (∀ lang ∈ langs, CompleteFor contents source lang fs) →
      translateRun B contents source langs fs = (fs, [], none) := by
  intro langs
  induction langs with
  | nil => intro fs _; rfl
  | cons l rest ih =>
    intro fs hall
    rw [translateRun]
    simp only [processLang_complete_noop (hall l (List.mem_cons_self _ _))]
    rw [ih fs (fun lang hm => hall lang (List.mem_cons_of_mem _ hm))]
    rfl

/-! ### Master characterization of a successful pass over a map target -/

theorem processLang_map_master {B : Backend}
    {contents : List (String × String)} {source lang : String}
    {fs fs' : FS} {cs : List String} {m : List (String × String)}
    (hoy : loadDoc fs (outPath source lang) = .map m)
    (hmnd : (m.map Prod.fst).Nodup)
    (hcnd : (contents.map Prod.fst).Nodup)
    (hrun : processLang B contents source lang fs = .ok (fs', cs)) :
    ∃ ls,
      cs = (freshList m contents).map (fun kv => magicSubS kv.2) ∧
      List.Forall₂ (fun kv t => B lang (magicSubS kv.2) = Except.ok t)
        (freshList m contents) ls ∧
      fs' (outPath source lang) = some (.map (sortByKey (insertAll m
        (((freshList m contents).map Prod.fst).zip (ls.map magicSubS))))) ∧
      ∀ k, getVal (sortByKey (insertAll m
          (((freshList m contents).map Prod.fst).zip (ls.map magicSubS)))) k =
        match getVal (((freshList m contents).map Prod.fst).zip
            (ls.map magicSubS)) k with
        | some v => some v
        | none => getVal m k := by
  obtain ⟨ks, ls, hcol, hfs⟩ := processLang_ok_elim hoy hrun
  obtain ⟨e1, e2, e3⟩ := collect_ok B lang m contents ks ls cs hcol
  have hfreshnd : ((freshList m contents).map Prod.fst).Nodup := by
    refine List.Sublist.nodup ?_ hcnd
    exact (List.filter_sublist contents).map Prod.fst
  have hfresh : ∀ p ∈ freshList m contents, hasKey m p.1 = false := by
    intro p hp
    rw [freshList, List.mem_filter] at hp
    simpa using hp.2
  have hlen : ((freshList m contents).map Prod.fst).length ≤
      (ls.map magicSubS).length := by
    rw [List.length_map, List.length_map, e3.length_eq]
  have hkeyspairs :
      ((((freshList m contents).map Prod.fst).zip (ls.map magicSubS)).map
        Prod.fst) = (freshList m contents).map Prod.fst :=
    List.map_fst_zip _ _ hlen
  have hpairs_fresh : ∀ p ∈ ((freshList m contents).map Prod.fst).zip
      (ls.map magicSubS), hasKey m p.1 = false := by
    intro p hp
    have hmem : p.1 ∈ (((freshList m contents).map Prod.fst).zip
        (ls.map magicSubS)).map Prod.fst := List.mem_map_of_mem Prod.fst hp
    rw [hkeyspairs] at hmem
    obtain ⟨q, hq, hqe⟩ := List.mem_map.mp hmem
    rw [← hqe]
    exact hfresh q hq
  have hpairsnd : ((((freshList m contents).map Prod.fst).zip
      (ls.map magicSubS)).map Prod.fst).Nodup := by
    rw [hkeyspairs]
    exact hfreshnd
  have hndall : ((insertAll m (((freshList m contents).map Prod.fst).zip
      (ls.map magicSubS))).map Prod.fst).Nodup :=
    nodup_keys_insertAll _ m hmnd hpairsnd hpairs_fresh
  refine ⟨ls, e2, e3, ?_, ?_⟩
  · rw [hfs, ← e1]
    exact if_pos rfl
  · intro k
    rw [getVal_sortByKey _ hndall k, getVal_insertAll _ m k hpairsnd]

/-! ### The claims -/

/-- **C8**: the pre-translation normalization step that replaces reserved
marker runs with the literal placeholder token is idempotent: for every
input string, applying the substitution twice yields the same result as
applying it once. -/
theorem marker_substitution_idempotent (s : String) :
    magicSubS (magicSubS s) = magicSubS s :=
  magicSubS_idem s

/-- **C1, counterexample**: for source `dir/strings.yml` and language `fr`
the code computes `dir/fr.yaml` (extension hardcoded), not the spec's
`dir/fr.yml` (same extension as the source). -/
theorem target_path_extension_counterexample :
    outPath "dir/strings.yml" "fr" = "dir/fr.yaml" ∧
    specTargetPath "dir/strings.yml" "fr" = "dir/fr.yml" ∧
    outPath "dir/strings.yml" "fr" ≠ specTargetPath "dir/strings.yml" "fr" := by
  refine ⟨?_, ?_, ?_⟩ <;> decide

/-- **C1, amended**: the computed target path is `<language>.yaml` in the
source file's directory regardless of the source extension; it coincides
with the spec's `<language>.<same-extension-as-source>` rule exactly when
the source extension is `yaml`. -/
theorem target_path_matches_spec_for_yaml_source (source lang : String)
    (h : extAfterDot source.data = "yaml".data) :
    outPath source lang = specTargetPath source lang := by
  rw [outPath, specTargetPath, h]

theorem target_path_matches_spec_for_yaml_source_witness :
    extAfterDot "dir/strings.yaml".data = "yaml".data ∧
    outPath "dir/strings.yaml" "fr" = specTargetPath "dir/strings.yaml" "fr" :=
  ⟨by decide,
    target_path_matches_spec_for_yaml_source "dir/strings.yaml" "fr" (by decide)⟩

/-- **C2, counterexample**: a marker run of length one is not matched by
`r'@@@*'`: for source value `"a@b"` (with an echoing backend and no
pre-existing target file) the stored value is `"a@b"` — it still contains
the marker and contains no `{`, hence no placeholder token. -/
theorem single_marker_preserved_counterexample :
    (processLang B0 [("k", "a@b")] "dir/s.yaml" "fr" FSempty).toOption.map
        (fun r => (r.1 (outPath "dir/s.yaml" "fr"), r.2)) =
      some (some (.map [("k", "a@b")]), ["a@b"]) ∧
    '@' ∈ "a@b".data ∧ '{' ∉ "a@b".data := by
  refine ⟨?_, ?_, ?_⟩ <;> decide

/-- **C2, amended**: for every source value of the form
`pre ++ run ++ post` where `run` is a marker run of length ≥ 2, `pre` is
marker-free and `post` does not start with a marker, and a backend that
returns the submitted text unchanged, the value stored for that key after
the pass is the source value with the run replaced by the literal `{}`
(and the tail normalized likewise), and it contains no marker run of
length ≥ 2.  (Runs of length one are left unchanged — see the
counterexample.) -/
theorem marker_run_replaced_by_placeholder (B : Backend)
    (source lang k : String) (fs : FS) (pre post : List Char) (n : ℕ)
    (hn : 2 ≤ n) (hpre : '@' ∉ pre) (hpost : post.head? ≠ some '@')
    (hload : fs (outPath source lang) = none)
    (hB : B lang ⟨pre ++ '{' :: '}' :: magicSub post⟩ =
      .ok ⟨pre ++ '{' :: '}' :: magicSub post⟩) :
    processLang B [(k, ⟨pre ++ List.replicate n '@' ++ post⟩)] source lang fs =
      .ok (fun p => if p = outPath source lang then
          some (.map [(k, ⟨pre ++ '{' :: '}' :: magicSub post⟩)])
        else fs p,
        [⟨pre ++ '{' :: '}' :: magicSub post⟩]) ∧
    NoRun2 (pre ++ '{' :: '}' :: magicSub post) := by
  have hsub : magicSubS ⟨pre ++ List.replicate n '@' ++ post⟩ =
      ⟨pre ++ '{' :: '}' :: magicSub post⟩ := by
    rw [magicSubS]
    exact congrArg String.mk (magicSub_placement pre post n hn hpre hpost)
  have hnr : NoRun2 (pre ++ '{' :: '}' :: magicSub post) :=
    noRun2_pre_placeholder pre post hpre
  have hid : magicSubS ⟨pre ++ '{' :: '}' :: magicSub post⟩ =
      ⟨pre ++ '{' :: '}' :: magicSub post⟩ := by
    rw [magicSubS]
    exact congrArg String.mk ((magicRun_eq_self _).1 hnr)
  refine ⟨?_, hnr⟩
  have hload' : loadDoc fs (outPath source lang) = .map [] := by
    rw [loadDoc, hload]
  have hcol : collect B lang (.map [])
      [(k, ⟨pre ++ List.replicate n '@' ++ post⟩)] =
      .ok ([k], [⟨pre ++ '{' :: '}' :: magicSub post⟩],
        [⟨pre ++ '{' :: '}' :: magicSub post⟩]) := by
    rw [collect, if_neg (by simp [hasKey]), hsub, hB]
    rfl
  rw [processLang, hload', hcol]
  show Except.ok
      ((fun p => if p = outPath source lang then
          some (YDoc.map
            [(k, magicSubS ⟨pre ++ '{' :: '}' :: magicSub post⟩)])
        else fs p),
        [(⟨pre ++ '{' :: '}' :: magicSub post⟩ : String)]) = _
  rw [hid]

theorem marker_run_replaced_by_placeholder_witness :
    (2 ≤ 2 ∧ '@' ∉ "a".data ∧ "b".data.head? ≠ some '@' ∧
      FSempty (outPath "s.yaml" "fr") = none) ∧
    (processLang B0 [("k", ⟨"a".data ++ List.replicate 2 '@' ++ "b".data⟩)]
        "s.yaml" "fr" FSempty =
      .ok (fun p => if p = outPath "s.yaml" "fr" then
          some (.map [("k", ⟨"a".data ++ '{' :: '}' :: magicSub "b".data⟩)])
        else FSempty p,
        [⟨"a".data ++ '{' :: '}' :: magicSub "b".data⟩]) ∧
     NoRun2 ("a".data ++ '{' :: '}' :: magicSub "b".data)) :=
  ⟨⟨by decide, by decide, by decide, rfl⟩,
    marker_run_replaced_by_placeholder B0 "s.yaml" "fr" "k" FSempty
      "a".data "b".data 2 (by decide) (by decide) (by decide) rfl rfl⟩

/-- **C3**: for every key already present in the existing target map when a
language is processed, the pass neither queues that key for the backend
(every submitted text comes from a key different from it) nor changes the
key's value in the persisted target file, for every source value. -/
theorem existing_key_skipped (B : Backend) (contents : List (String × String))
    (source lang k : String) (fs fs' : FS) (cs : List String)
    (m : List (String × String))
    (hload : fs (outPath source lang) = some (.map m))
    (hk : hasKey m k = true)
    (hmnd : (m.map Prod.fst).Nodup)
    (hcnd : (contents.map Prod.fst).Nodup)
    (hrun : processLang B contents source lang fs = .ok (fs', cs)) :
    cs = (freshList m contents).map (fun kv => magicSubS kv.2) ∧
    (∀ kv ∈ freshList m contents, kv.1 ≠ k) ∧
    ∃ l, fs' (outPath source lang) = some (.map l) ∧
      getVal l k = getVal m k := by
  have hoy : loadDoc fs (outPath source lang) = .map m := by
    rw [loadDoc, hload]
  obtain ⟨ls, e2, e3, hstore, hchar⟩ :=
    processLang_map_master hoy hmnd hcnd hrun
  have hfreshk : ∀ kv ∈ freshList m contents, kv.1 ≠ k := by
    intro kv hkv he
    rw [freshList, List.mem_filter] at hkv
    rw [he, hk] at hkv
    simpa using hkv.2
  refine ⟨e2, hfreshk, _, hstore, ?_⟩
  rw [hchar k]
  have hnone : getVal (((freshList m contents).map Prod.fst).zip
      (ls.map magicSubS)) k = none := by
    apply getVal_zip_none
    intro hkk
    obtain ⟨q, hq, hqe⟩ := List.mem_map.mp hkk
    exact hfreshk q hq hqe
  rw [hnone]

theorem existing_key_skipped_witness :
    hasKey [("a", "OLD")] "a" = true ∧
    (["y"] = (freshList [("a", "OLD")] [("a", "x"), ("b", "y")]).map
        (fun kv => magicSubS kv.2) ∧
     (∀ kv ∈ freshList [("a", "OLD")] [("a", "x"), ("b", "y")], kv.1 ≠ "a") ∧
     ∃ l, Fm' (outPath "s.yaml" "fr") = some (.map l) ∧
       getVal l "a" = getVal [("a", "OLD")] "a") :=
  ⟨by decide,
    existing_key_skipped B0 [("a", "x"), ("b", "y")] "s.yaml" "fr" "a"
      Fm Fm' ["y"] [("a", "OLD")] rfl (by decide) (by decide) (by decide) rfl⟩

/-- **C4**: for every translation batch the queued keys and the translated
outputs correspond positionally: there is a list of backend outputs `ts`,
in 1:1 order-preserving correspondence with the queued entries (no
reordering, dropping or deduplication), and the value persisted under the
`i`-th queued key is the (marker-normalized) `i`-th output. -/
theorem batch_positional_correspondence (B : Backend)
    (contents : List (String × String)) (source lang : String)
    (fs fs' : FS) (cs : List String) (m : List (String × String))
    (hload : fs (outPath source lang) = some (.map m))
    (hmnd : (m.map Prod.fst).Nodup)
    (hcnd : (contents.map Prod.fst).Nodup)
    (hrun : processLang B contents source lang fs = .ok (fs', cs)) :
    ∃ l ts, fs' (outPath source lang) = some (.map l) ∧
      List.Forall₂ (fun kv t => B lang (magicSubS kv.2) = Except.ok t)
        (freshList m contents) ts ∧
      ∀ i (h1 : i < (freshList m contents).length) (h2 : i < ts.length),
        getVal l (((freshList m contents).get ⟨i, h1⟩).1) =
          some (magicSubS (ts.get ⟨i, h2⟩)) := by
  have hoy : loadDoc fs (outPath source lang) = .map m := by
    rw [loadDoc, hload]
  obtain ⟨ls, e2, e3, hstore, hchar⟩ :=
    processLang_map_master hoy hmnd hcnd hrun
  have hfreshnd : ((freshList m contents).map Prod.fst).Nodup := by
    refine List.Sublist.nodup ?_ hcnd
    exact (List.filter_sublist contents).map Prod.fst
  refine ⟨_, ls, hstore, e3, ?_⟩
  intro i h1 h2
  have hi1 : i < ((freshList m contents).map Prod.fst).length := by
    rw [List.length_map]
    exact h1
  have hi2 : i < (ls.map magicSubS).length := by
    rw [List.length_map]
    exact h2
  have hz := getVal_zip_getElem ((freshList m contents).map Prod.fst)
    (ls.map magicSubS) hfreshnd i hi1 hi2
  rw [List.getElem_map, List.getElem_map] at hz
  rw [hchar, List.get_eq_getElem, List.get_eq_getElem, hz]

theorem batch_positional_correspondence_witness :
    Fm (outPath "s.yaml" "fr") = some (.map [("a", "OLD")]) ∧
    (∃ l ts, Fm' (outPath "s.yaml" "fr") = some (.map l) ∧
      List.Forall₂ (fun kv t => B0 "fr" (magicSubS kv.2) = Except.ok t)
        (freshList [("a", "OLD")] [("a", "x"), ("b", "y")]) ts ∧
      ∀ i (h1 : i < (freshList [("a", "OLD")] [("a", "x"), ("b", "y")]).length)
        (h2 : i < ts.length),
        getVal l (((freshList [("a", "OLD")] [("a", "x"), ("b", "y")]).get
            ⟨i, h1⟩).1) = some (magicSubS (ts.get ⟨i, h2⟩))) :=
  ⟨rfl,
    batch_positional_correspondence B0 [("a", "x"), ("b", "y")] "s.yaml" "fr"
      Fm Fm' ["y"] [("a", "OLD")] rfl (by decide) (by decide) rfl⟩

/-- **C5**: after a successful pass the persisted target file is exactly the
union of the pre-existing entries (values unchanged) and one newly
translated entry per source key absent from the pre-existing map (and
nothing else); with no pre-existing file the pre-existing map is empty, so
every source key gets a translated entry. -/
theorem target_is_union_of_existing_and_translated (B : Backend)
    (contents : List (String × String)) (source lang : String)
    (fs fs' : FS) (cs : List String) (m : List (String × String))
    (hload : fs (outPath source lang) = none ∧ m = [] ∨
      fs (outPath source lang) = some (.map m))
    (hmnd : (m.map Prod.fst).Nodup)
    (hcnd : (contents.map Prod.fst).Nodup)
    (hrun : processLang B contents source lang fs = .ok (fs', cs)) :
    ∃ l, fs' (outPath source lang) = some (.map l) ∧
      (∀ k, hasKey m k = true → getVal l k = getVal m k) ∧
      (∀ k v, (k, v) ∈ contents → hasKey m k = false →
        ∃ t, B lang (magicSubS v) = Except.ok t ∧
          getVal l k = some (magicSubS t)) ∧
      (∀ k, hasKey m k = false → hasKey contents k = false →
        getVal l k = none) := by
  have hoy : loadDoc fs (outPath source lang) = .map m := by
    rcases hload with ⟨h1, h2⟩ | h1
    · rw [loadDoc, h1, h2]
    · rw [loadDoc, h1]
  obtain ⟨ls, e2, e3, hstore, hchar⟩ :=
    processLang_map_master hoy hmnd hcnd hrun
  have hfreshnd : ((freshList m contents).map Prod.fst).Nodup := by
    refine List.Sublist.nodup ?_ hcnd
    exact (List.filter_sublist contents).map Prod.fst
  refine ⟨_, hstore, ?_, ?_, ?_⟩
  · intro k hk
    rw [hchar k]
    have hnone : getVal (((freshList m contents).map Prod.fst).zip
        (ls.map magicSubS)) k = none := by
      apply getVal_zip_none
      intro hkk
      obtain ⟨q, hq, hqe⟩ := List.mem_map.mp hkk
      rw [freshList, List.mem_filter] at hq
      rw [hqe, hk] at hq
      simpa using hq.2
    rw [hnone]
  · intro k v hkv hk
    have hmem : (k, v) ∈ freshList m contents := by
      rw [freshList, List.mem_filter]
      exact ⟨hkv, by simp [hk]⟩
    obtain ⟨t, ht, hg⟩ :=
      forall₂_zip_getVal magicSubS (freshList m contents) ls e3 hfreshnd
        k v hmem
    refine ⟨t, ht, ?_⟩
    rw [hchar k, hg]
  · intro k hk hkc
    rw [hchar k]
    have hnone : getVal (((freshList m contents).map Prod.fst).zip
        (ls.map magicSubS)) k = none := by
      apply getVal_zip_none
      intro hkk
      obtain ⟨q, hq, hqe⟩ := List.mem_map.mp hkk
      rw [freshList, List.mem_filter] at hq
      refine absurd ((hasKey_iff contents k).mpr ?_) (by rw [hkc]; simp)
      rw [← hqe]
      exact List.mem_map_of_mem Prod.fst hq.1
    rw [hnone]
    exact getVal_eq_none m k hk

theorem target_union_witness :
    ((Fm (outPath "s.yaml" "fr") = none ∧
        [("a", "OLD")] = ([] : List (String × String))) ∨
      Fm (outPath "s.yaml" "fr") = some (.map [("a", "OLD")])) ∧
    (∃ l, Fm' (outPath "s.yaml" "fr") = some (.map l) ∧
      (∀ k, hasKey [("a", "OLD")] k = true →
        getVal l k = getVal [("a", "OLD")] k) ∧
      (∀ k v, (k, v) ∈ [("a", "x"), ("b", "y")] →
        hasKey [("a", "OLD")] k = false →
        ∃ t, B0 "fr" (magicSubS v) = Except.ok t ∧
          getVal l k = some (magicSubS t)) ∧
      (∀ k, hasKey [("a", "OLD")] k = false →
        hasKey [("a", "x"), ("b", "y")] k = false → getVal l k = none)) :=
  ⟨Or.inr rfl,
    target_is_union_of_existing_and_translated B0 [("a", "x"), ("b", "y")]
      "s.yaml" "fr" Fm Fm' ["y"] [("a", "OLD")] (Or.inr rfl) (by decide)
      (by decide) rfl⟩

/-- **C9**: the persisted target file lists its keys in sorted order
(Python string order on code points), for every source map and every
pre-existing target map, because the dump sorts keys. -/
theorem persisted_keys_sorted (B : Backend)
    (contents : List (String × String)) (source lang : String)
    (fs fs' : FS) (cs : List String) (m : List (String × String))
    (hload : fs (outPath source lang) = none ∨
      fs (outPath source lang) = some (.map m))
    (hrun : processLang B contents source lang fs = .ok (fs', cs)) :
    ∃ l, fs' (outPath source lang) = some (.map l) ∧ SortedKeys l := by
  have hoy : ∃ m', loadDoc fs (outPath source lang) = .map m' := by
    rcases hload with h | h
    · exact ⟨[], by rw [loadDoc, h]⟩
    · exact ⟨m, by rw [loadDoc, h]⟩
  obtain ⟨m', hoy⟩ := hoy
  obtain ⟨ks, ls, _, hfs⟩ := processLang_ok_elim hoy hrun
  refine ⟨sortByKey (insertAll m' (ks.zip (ls.map magicSubS))), ?_,
    sortByKey_sorted _⟩
  rw [hfs]
  exact if_pos rfl

theorem persisted_keys_sorted_witness :
    (FSempty (outPath "s.yaml" "fr") = none ∨
      FSempty (outPath "s.yaml" "fr") = some (.map [])) ∧
    (∃ l, F9 (outPath "s.yaml" "fr") = some (.map l) ∧ SortedKeys l) :=
  ⟨Or.inl rfl,
    persisted_keys_sorted B0 [("b", "y"), ("a", "x")] "s.yaml" "fr"
      FSempty F9 ["y", "x"] [] (Or.inl rfl) rfl⟩

/-- **C6**: if a full run completes, running the pipeline again with the
same source map, languages and backend performs zero backend calls (the
submission list is empty) and leaves every target file identical (the
filesystem, holding canonical serialized documents, is unchanged), and the
second run also completes. -/
theorem rerun_no_calls_and_stable (B : Backend)
    (contents : List (String × String)) (source : String)
    (langs : List String) (fs0 fs1 : FS) (cs1 : List String)
    (hfirst : translateRun B contents source langs fs0 = (fs1, cs1, none)) :
    translateRun B contents source langs fs1 = (fs1, [], none) :=
  translateRun_complete_noop langs fs1
    (translateRun_complete langs fs0 fs1 cs1 hfirst)

theorem rerun_no_calls_and_stable_witness :
    translateRun B0 [("a", "x")] "s.yaml" ["fr"] FSempty = (F1, ["x"], none) ∧
    translateRun B0 [("a", "x")] "s.yaml" ["fr"] F1 = (F1, [], none) :=
  ⟨rfl,
    rerun_no_calls_and_stable B0 [("a", "x")] "s.yaml" ["fr"] FSempty F1
      ["x"] rfl⟩

/-- **C7**: if the backend call fails while processing a language, the whole
run aborts at that point: the final filesystem is exactly the state after
the languages completed earlier in the run (so the in-progress language's
target file is not written and retains its prior content or absence), the
submissions are those of the completed languages, and the error is
reported; the remaining languages are never processed. -/
theorem backend_failure_aborts_run (B : Backend)
    (contents : List (String × String)) (source : String)
    (done rest : List String) (lang : String) (fs0 fsd : FS)
    (csd : List String) (e : PyErr)
    (hdone : translateRun B contents source done fs0 = (fsd, csd, none))
    (hfail : processLang B contents source lang fsd = .error e) :
    translateRun B contents source (done ++ lang :: rest) fs0 =
      (fsd, csd, some e) := by
  induction done generalizing fs0 csd with
  | nil =>
    simp only [translateRun, Prod.mk.injEq] at hdone
    rw [List.nil_append, hdone.1, translateRun]
    simp only [hfail]
    rw [← hdone.2.1]
  | cons l ds ih =>
    rw [List.cons_append, translateRun]
    rw [translateRun] at hdone
    cases hpl : processLang B contents source l fs0 with
    | error e' =>
      simp only [hpl, Prod.mk.injEq] at hdone
      exact absurd hdone.2.2 (by simp)
    | ok pr =>
      obtain ⟨fs', cs⟩ := pr
      simp only [hpl] at hdone ⊢
      rcases hrr : translateRun B contents source ds fs' with ⟨a, bc⟩
      obtain ⟨b, c⟩ := bc
      rw [hrr] at hdone
      simp only [Prod.mk.injEq] at hdone
      have hds : translateRun B contents source ds fs' = (fsd, b, none) := by
        rw [hrr, hdone.1, hdone.2.2]
      rw [ih fs' b hds, ← hdone.2.1]

theorem backend_failure_aborts_run_witness :
    translateRun Bfail [("a", "x")] "s.yaml" ["de"] FSempty =
      (Fde, ["x"], none) ∧
    processLang Bfail [("a", "x")] "s.yaml" "fr" Fde =
      .error .backendError ∧
    translateRun Bfail [("a", "x")] "s.yaml" ["de", "fr"] FSempty =
      (Fde, ["x"], some .backendError) :=
  ⟨rfl, rfl,
    backend_failure_aborts_run Bfail [("a", "x")] "s.yaml" ["de"] []
      "fr" FSempty Fde ["x"] .backendError rfl rfl⟩

/-- **C10, counterexample**: with an empty source map, a target file that
parses to null does not abort the run: the pass completes (and rewrites the
file with the null document), because the membership test is never
reached. -/
theorem null_target_no_abort_counterexample :
    processLang B0 [] "s.yaml" "fr" FSnull =
      .ok (fun p => if p = outPath "s.yaml" "fr" then some .null
        else FSnull p, []) := rfl

/-- **C10, amended**: if the target file parses to the null document and
the source map is nonempty, the membership test `key in out_yaml` raises
`TypeError` on the first key: the pass aborts with that error, before any
backend call and before anything is written for that language. -/
theorem null_target_aborts (B : Backend)
    (contents : List (String × String)) (source lang : String) (fs : FS)
    (kv : String × String) (rest : List (String × String))
    (hload : fs (outPath source lang) = some .null)
    (hcont : contents = kv :: rest) :
    processLang B contents source lang fs = .error .typeError ∧
    translateRun B contents source [lang] fs = (fs, [], some .typeError) := by
  have hoy : loadDoc fs (outPath source lang) = .null := by
    rw [loadDoc, hload]
  have h1 : processLang B contents source lang fs = .error .typeError := by
    rw [processLang, hoy, hcont, collect_null]
  refine ⟨h1, ?_⟩
  rw [translateRun]
  simp only [h1]

theorem null_target_aborts_witness :
    FSnull (outPath "s.yaml" "fr") = some .null ∧
    (processLang B0 [("a", "x")] "s.yaml" "fr" FSnull =
        .error .typeError ∧
      translateRun B0 [("a", "x")] "s.yaml" ["fr"] FSnull =
        (FSnull, [], some .typeError)) :=
  ⟨rfl,
    null_target_aborts B0 [("a", "x")] "s.yaml" "fr" FSnull ("a", "x") []
      rfl rfl⟩

end DijkstraBot
